import Mathlib

/-!
Verification development for the commit batching and grouping engine of
`commit-ai` (source of authority: `src/commit-ai/analysis.py`).

The Python code is shallowly embedded: every definition below mirrors a
function or constant of `analysis.py` (the Python name is given in each
doc comment).  External collaborators (git subprocesses, the Gemini
model, the interactive prompt) are modelled as explicit oracle inputs;
`sys.exit(1)` is modelled with the `Except Nat` monad whose error value
is the process exit status.  Python strings are Lean `String`s and the
relevant `str` methods (`strip`, `split`, `in`, `endswith`,
`startswith`, `lower`, `os.path.basename`, `os.path.splitext`) are
reimplemented below with CPython semantics.
-/

namespace CommitAI

/-! Section: Python string primitives

All string operations are implemented by structural recursion over the
character lists underlying Lean `String`s, mirroring the CPython
semantics of the methods used by `analysis.py` (`strip` over ASCII
whitespace, `lower` over ASCII letters — the inputs concerned are file
paths and git porcelain output). -/

/-- Python `s.strip()` on a character list. -/
def pyStripChars (cs : List Char) : List Char :=
  ((cs.dropWhile Char.isWhitespace).reverse.dropWhile Char.isWhitespace).reverse

/-- Python `s.strip()`. -/
def pyStrip (s : String) : String := String.mk (pyStripChars s.data)

/-- Python `s.lower()`. -/
def pyToLower (s : String) : String := String.mk (s.data.map Char.toLower)

/-- Python `s.endswith(suf)`. -/
def pyEndsWith (s suf : String) : Bool := suf.data.isSuffixOf s.data

/-- Python `s.startswith(p)`. -/
def pyStartsWith (s p : String) : Bool := p.data.isPrefixOf s.data

/-- Python `s.split(sep)` on character lists (`sep` nonempty in every
use), written with a structural fuel parameter so that the kernel can
evaluate it; `fuel > cs.length` never runs out. -/
def pySplitCharsF (sep : List Char) : Nat → List Char → List (List Char)
  | 0, cs => [cs]
  | _ + 1, [] => [[]]
  | fuel + 1, c :: rest =>
    if sep.isPrefixOf (c :: rest) ∧ sep ≠ [] then
      [] :: pySplitCharsF sep fuel ((c :: rest).drop sep.length)
    else
      match pySplitCharsF sep fuel rest with
      | [] => [[c]]
      | hd :: tl => (c :: hd) :: tl

/-- Python `s.split(sep)` on character lists. -/
def pySplitChars (sep cs : List Char) : List (List Char) :=
  pySplitCharsF sep (cs.length + 1) cs

/-- Python `sep.join(parts)` on character lists. -/
def pyJoinChars (sep : List Char) : List (List Char) → List Char
  | [] => []
  | [x] => x
  | x :: xs => x ++ sep ++ pyJoinChars sep xs

/-- Python `s.split(sep)`. -/
def pySplit (s sep : String) : List String :=
  (pySplitChars sep.data s.data).map String.mk

/-- Python `sep.join(parts)`. -/
def pyJoin (sep : String) (parts : List String) : String :=
  String.mk (pyJoinChars sep.data (parts.map String.data))

/-- Python `s.replace(old, new)` on character lists (all non-overlapping
occurrences, left to right; `old` nonempty in every use), with a
structural fuel parameter; `fuel > cs.length` never runs out. -/
def pyReplaceCharsF (old new : List Char) : Nat → List Char → List Char
  | 0, cs => cs
  | _ + 1, [] => []
  | fuel + 1, c :: rest =>
    if old.isPrefixOf (c :: rest) ∧ old ≠ [] then
      new ++ pyReplaceCharsF old new fuel ((c :: rest).drop old.length)
    else c :: pyReplaceCharsF old new fuel rest

/-- Python `s.replace(old, new)` on character lists. -/
def pyReplaceChars (old new cs : List Char) : List Char :=
  pyReplaceCharsF old new (cs.length + 1) cs

/-- Python `s.replace(old, new)`. -/
def pyReplace (s old new : String) : String :=
  String.mk (pyReplaceChars old.data new.data s.data)

/-- Python `len(s)` (number of characters). -/
def pyLen (s : String) : Nat := s.data.length

/-- Python `needle in hay` (substring containment). -/
def strContains (hay needle : String) : Bool :=
  (List.range (hay.data.length + 1)).any
    (fun i => decide (needle.data = (hay.data.drop i).take needle.data.length))

/-- Python `os.path.basename` (posix): everything after the last `'/'`. -/
def basenameStr (p : String) : String :=
  String.mk (p.data.foldl (fun acc c => if c = '/' then [] else acc ++ [c]) [])

/-- Last index of character `c` in `cs`, if any (CPython `str.rfind`). -/
def lastIndexOfChar (c : Char) (cs : List Char) : Option Nat :=
  cs.enum.foldl (fun acc p => if p.2 = c then some p.1 else acc) none

/-- Python `os.path.splitext(p)[1]` (posix `splitext` algorithm): the
extension starting at the last dot of the basename, empty when the
basename consists only of leading dots before that position. -/
def splitextExt (p : String) : String :=
  let cs := p.data
  let sepIndex : Int := match lastIndexOfChar '/' cs with
    | some i => (i : Int)
    | none => -1
  let dotIndex : Int := match lastIndexOfChar '.' cs with
    | some i => (i : Int)
    | none => -1
  if sepIndex < dotIndex then
    let startIdx := (sepIndex + 1).toNat
    let between := (cs.drop startIdx).take (dotIndex.toNat - startIdx)
    if between.any (fun ch => ch ≠ '.') then String.mk (cs.drop dotIndex.toNat) else ""
  else ""

/-- Python `s.split(' ', 1)` when it yields two parts (`None` models
`len(parts) < 2`, i.e. no space present). -/
def splitFirstSpace (s : String) : Option (String × String) :=
  match pySplit s " " with
  | [] => none
  | [_] => none
  | p :: rest => some (p, pyJoin " " rest)

/-- Python `s.split('\n')[0]`. -/
def firstLine (s : String) : String :=
  match pySplit s "\n" with
  | [] => ""
  | x :: _ => x

/-! Section: Module constants of `analysis.py` -/

/-- Constant `GENERIC_DEPENDENCY_FILES` (analysis.py line 77). -/
def GENERIC_DEPENDENCY_FILES : List String :=
  ["package-lock.json", "yarn.lock", "pnpm-lock.yaml", "poetry.lock", "Pipfile.lock"]

/-- Constant `IMAGE_FILE_EXTENSIONS` (analysis.py line 80). -/
def IMAGE_FILE_EXTENSIONS : List String :=
  [".png", ".jpg", ".jpeg", ".svg", ".gif", ".webp", ".ico", ".bmp"]

/-- Constant `DEPENDENCY_PATTERNS` (analysis.py lines 83-91), as an insertion-ordered
association list (Python dicts preserve insertion order). -/
def DEPENDENCY_PATTERNS : List (String × List String) :=
  [("package_management", [".json", ".lock", ".toml", ".yaml", ".yml"]),
   ("configuration", ["config", "env", "settings", ".rc", ".conf"]),
   ("documentation", [".md", ".rst", ".txt", "README", "CHANGELOG"]),
   ("testing", ["test", "spec", "__tests__", ".test.", ".spec."]),
   ("styling", [".css", ".scss", ".sass", ".less", ".styl"]),
   ("types", [".d.ts", "types", "interfaces"]),
   ("build", ["webpack", "rollup", "vite", "tsconfig", "babel", "eslint", "prettier"])]

/-! Section: ChangeSetScanner: `_get_changed_files` (analysis.py lines 210-281)

The two git queries (`git ls-files --others --exclude-standard` and
`git status --porcelain`) are modelled by their stdout strings. -/

/-- One entry of the list returned by `_get_changed_files`:
the Python dict `{'status': ..., 'file': ...}`. -/
structure FileInfo where
  status : String
  file : String
deriving DecidableEq, Repr

/-- Python `path_info[1:-1]` applied when the path is wrapped in double
quotes (analysis.py lines 240-241). -/
def unquotePath (p : String) : String :=
  if pyStartsWith p "\"" ∧ pyEndsWith p "\"" then String.mk (p.data.drop 1).dropLast else p

/-- Python `path_info.split(' -> ', 1)[1]`: the rename destination
(analysis.py line 251). -/
def renameDest (path_info : String) : String :=
  pyJoin " -> " (pySplit path_info " -> ").tail

/-- The body of the per-line loop over `git status --porcelain` output
(analysis.py lines 228-268), without the duplicate check: `none` when the
line is skipped (blank line, no space, deleted file, empty path). -/
def parse_status_line (line : String) : Option FileInfo :=
  let l := pyStrip line
  if l = "" then none
  else
    match splitFirstSpace l with
    | none => none
    | some (status_code, path_info0) =>
      let path_info := unquotePath path_info0
      if status_code.data.contains 'D' then none
      else
        let record : FileInfo :=
          if pyStartsWith status_code "R" then
            if strContains path_info " -> " then ⟨"M", renameDest path_info⟩
            else ⟨"M", path_info⟩
          else if status_code = "??" then ⟨"??", path_info⟩
          else if pyStrip status_code = "A" ∨ pyStrip status_code = "AM" then ⟨"??", path_info⟩
          else ⟨"M", path_info⟩
        if record.file = "" then none else some record

/-- The untracked-file loop (analysis.py lines 216-223), before the
duplicate check: each nonempty line of `git ls-files` stdout becomes a
`??` record. -/
def untracked_candidates (lsOut : String) : List FileInfo :=
  if pyStrip lsOut = "" then []
  else (pySplit (pyStrip lsOut) "\n").filterMap
    (fun f => if f = "" then none else some ⟨"??", f⟩)

/-- The lines of `git status --porcelain` stdout (analysis.py line 228). -/
def status_lines (statusOut : String) : List String :=
  if pyStrip statusOut = "" then [] else pySplit (pyStrip statusOut) "\n"

/-- The `processed_files` bookkeeping common to both loops of
`_get_changed_files`: keep the first record per path, given the set of
paths already seen. -/
def dedup_records : List FileInfo → List String → List FileInfo
  | [], _ => []
  | r :: rs, seen =>
    if seen.contains r.file then dedup_records rs seen
    else r :: dedup_records rs (r.file :: seen)

/-- Model of `_get_changed_files` (analysis.py lines 210-281): untracked files
first, then parsed status lines, deduplicated by path with the first
occurrence winning — exactly the `processed_files` logic. -/
def get_changed_files (lsOut statusOut : String) : List FileInfo :=
  dedup_records
    (untracked_candidates lsOut ++ (status_lines statusOut).filterMap parse_status_line) []

/-! Section: The git collaborator and `_run_git_command` (analysis.py lines 164-174)

A git invocation either completes (`subprocess.run` with `check=True`
succeeds) or raises `CalledProcessError` with a return code.
`_run_git_command` catches that error: a return code of 1 on a command
containing `"status"` is returned as a result, any other nonzero code
other than 1 calls `sys.exit(1)` (modelled as `Except.error 1`, the
process exit status), and a return code of 1 yields `None`.
No other exception escapes it for a failing git call. -/

/-- Model of `subprocess.CompletedProcess` as consumed by the callers: only
`stdout` is inspected. -/
structure GitResult where
  stdout : String
deriving DecidableEq, Repr

/-- Outcome of one git subprocess: completed, or `CalledProcessError`
with return code, captured stdout and stderr. -/
inductive GitOutcome
  | completed (stdout : String)
  | failed (returncode : Int) (stdout : String) (stderr : String)
deriving DecidableEq, Repr

/-- An oracle assigning to each git command line its outcome. -/
def GitEnv := List String → GitOutcome

/-- Model of `_run_git_command` (analysis.py lines 164-174).  `Except.error c`
models `sys.exit(c)`. -/
def run_git_command (command : List String) :
    GitOutcome → Except Nat (Option GitResult)
  | .completed out => .ok (some ⟨out⟩)
  | .failed rc out _ =>
    if rc = 1 ∧ command.contains "status" then .ok (some ⟨out⟩)
    else if rc ≠ 1 then .error 1
    else .ok none

/-- Model of `_commit_files` (analysis.py lines 193-208).  The Python
`except Exception` branch (print, `git reset`, `return False`) is
unreachable for failing git calls because `_run_git_command` catches
`CalledProcessError` itself and `sys.exit` raises `SystemExit`, which is
not an `Exception`; the only modelled outcomes of a git failure are
therefore `Except.error 1` (exit code other than 1) or silently
continuing (`None` result, exit code 1). -/
def commit_files (env : GitEnv) (files : List String) (message : String)
    (no_verify : Bool) : Except Nat Bool := do
  let addCmd := ["git", "add", "--"] ++ files
  let _ ← run_git_command addCmd (env addCmd)
  let commitCmd := ["git", "commit", "-m", message] ++
    (if no_verify then ["--no-verify"] else [])
  let _ ← run_git_command commitCmd (env commitCmd)
  return true

/-! Section: AutoCommitPolicy passes (analysis.py lines 283-331) -/

/-- Python `line.split(maxsplit=1)`: first whitespace-delimited token and
the remainder after the first whitespace run; `none` when there is no
remainder (in which case the Python indexing `[1]` would raise). -/
def splitWsOnce (s : String) : Option (String × String) :=
  let ds := s.data.dropWhile Char.isWhitespace
  let tok := ds.takeWhile (fun c => ¬ c.isWhitespace)
  let rest := (ds.drop tok.length).dropWhile Char.isWhitespace
  if tok = [] ∨ rest = [] then none
  else some (String.mk tok, String.mk rest)

/-- The deleted-file selection of `_auto_commit_deleted_files`
(analysis.py lines 289-292): paths of porcelain lines whose stripped
form starts with `D`. -/
def deleted_files_selection (statusOut : String) : List String :=
  (status_lines statusOut).filterMap
    (fun line =>
      if pyStartsWith (pyStrip line) "D" then (splitWsOnce line).map (·.2) else none)

/-- The selection of `_auto_commit_dependency_updates` (analysis.py
line 300): files containing one of `GENERIC_DEPENDENCY_FILES` as a
substring — `any(dep in f for dep in GENERIC_DEPENDENCY_FILES)`. -/
def auto_commit_dependency_selection (all_files : List String) : List String :=
  all_files.filter (fun f => GENERIC_DEPENDENCY_FILES.any (fun dep => strContains f dep))

/-- The selection of `_auto_commit_image_files` (analysis.py line 307):
files whose lowercased path ends with one of `IMAGE_FILE_EXTENSIONS`. -/
def auto_commit_image_selection (all_files : List String) : List String :=
  all_files.filter (fun f => IMAGE_FILE_EXTENSIONS.any (fun ext => pyEndsWith (pyToLower f) ext))

/-! Section: Fallback classification (analysis.py lines 333-356 and 564-603) -/

/-- Remove duplicates keeping the first occurrence: `list(set(...))` in
Python returns the distinct elements in an unspecified (hash-based)
order; this model fixes first-occurrence order.  No theorem below
depends on the order of the resulting list. -/
def dedupKeepFirstF : Nat → List String → List String
  | 0, l => l
  | _ + 1, [] => []
  | fuel + 1, x :: xs => x :: dedupKeepFirstF fuel (xs.filter (fun y => y ≠ x))

/-- Remove duplicates keeping the first occurrence (fuel wrapper;
`fuel > l.length` never runs out). -/
def dedupKeepFirst (l : List String) : List String :=
  dedupKeepFirstF (l.length + 1) l

/-- Model of `_classify_file_by_pattern` (analysis.py lines 333-356). -/
def classify_file_by_pattern (file_path : String) : List String :=
  let file_lower := pyToLower file_path
  let cats := DEPENDENCY_PATTERNS.foldl
    (fun acc cp =>
      if cp.2.any (fun pat => strContains file_lower (pyToLower pat)) then acc ++ [cp.1]
      else acc) []
  let extra : List String :=
    if [".ts", ".tsx", ".js", ".jsx"].any (fun e => pyEndsWith file_path e) then ["source_code"]
    else if [".py", ".java", ".cpp", ".c", ".go", ".rs"].any (fun e => pyEndsWith file_path e) then
      ["source_code"]
    else if [".html", ".vue", ".svelte"].any (fun e => pyEndsWith file_path e) then ["template"]
    else if [".json", ".yaml", ".yml", ".toml"].any (fun e => pyEndsWith file_path e) then
      ["configuration"]
    else if IMAGE_FILE_EXTENSIONS.any (fun e => pyEndsWith (pyToLower file_path) e) then ["assets"]
    else []
  dedupKeepFirst (cats ++ extra)

/-- The dict returned by `_create_fallback_analysis`
(analysis.py lines 595-603). -/
structure FallbackAnalysis where
  summary : String
  keywords : List String
  feature_area : String
  dependencies : List String
  impact_level : String
  file_type : String
  file_patterns : List String
deriving DecidableEq, Repr

/-- Model of `_create_fallback_analysis` (analysis.py lines 564-603). -/
def create_fallback_analysis (file_path status : String) : FallbackAnalysis :=
  let file_ext := pyToLower (splitextExt file_path)
  let file_name := pyToLower (basenameStr file_path)
  let kft : List String × String × String :=
    if file_ext ∈ [".js", ".jsx", ".ts", ".tsx"] then
      (["javascript", "frontend"], "frontend",
        if strContains file_name "component" then "component" else "source")
    else if file_ext ∈ [".py"] then (["python", "backend"], "backend", "script")
    else if file_ext ∈ [".css", ".scss", ".sass"] then
      (["styling", "css"], "styling", "stylesheet")
    else if file_ext ∈ [".json"] then (["config", "json"], "configuration", "config")
    else if file_ext ∈ [".md"] then (["docs", "markdown"], "documentation", "documentation")
    else (["misc"], "misc", "other")
  ⟨(if status = "??" then "New " else "Modified ") ++ kft.2.2 ++ " file: " ++ file_path,
   kft.1, kft.2.1, [], "low", kft.2.2, classify_file_by_pattern file_path⟩

/-! Section: FileClassifier: `_analyze_single_file` (analysis.py lines 358-562)

The Gemini collaborator is modelled by the observable outcome of the
call-and-parse pipeline: no response object, empty response text, a text
from which none of the three parse attempts (direct JSON, fenced JSON,
brace search) extracts JSON, a raised exception, or a parsed JSON object
abstracted by its key set.  The `@retry` decorator retries only on
exceptions, and the function body catches every exception internally, so
it is transparent here. -/

/-- The filesystem view of one file (`os.path.isdir`, `os.path.exists`,
`open(...).read()`; `none` content models a read that raises). -/
structure FsView where
  isDirectory : Bool
  fileExists : Bool
  readContent : Option String
deriving DecidableEq, Repr

/-- Outcome of the Gemini analysis call for one file. -/
inductive GeminiAnalysisResp
  | noResponse
  | emptyText
  | unparseable
  | raised
  | parsed (keys : List String)
deriving DecidableEq, Repr

/-- The required JSON fields (analysis.py line 543). -/
def REQUIRED_FIELDS : List String := ["summary", "keywords", "feature_area"]

/-- A classification as produced by `_analyze_single_file`: either the
validated Gemini dict (abstracted by its keys, with `file_patterns`
attached as in line 553) or the deterministic fallback dict. -/
inductive Analysis
  | gemini (keys : List String) (file_patterns : List String)
  | fallback (fb : FallbackAnalysis)
deriving DecidableEq, Repr

/-- The response-validation tail of `_analyze_single_file`
(analysis.py lines 494-562): every failing outcome falls back, a parsed
object missing a required field falls back, otherwise the parsed result
is kept and `file_patterns` added. -/
def geminiAnalyze (resp : GeminiAnalysisResp) (file_path status : String) : Option Analysis :=
  match resp with
  | .noResponse => some (.fallback (create_fallback_analysis file_path status))
  | .emptyText => some (.fallback (create_fallback_analysis file_path status))
  | .unparseable => some (.fallback (create_fallback_analysis file_path status))
  | .raised => some (.fallback (create_fallback_analysis file_path status))
  | .parsed keys =>
    if REQUIRED_FIELDS.filter (fun fld => ¬ keys.contains fld) ≠ [] then
      some (.fallback (create_fallback_analysis file_path status))
    else some (.gemini keys (classify_file_by_pattern file_path))

/-- Python truthiness of `diff_result` / `diff_result.stdout.strip()`
used to chain the three diff attempts (analysis.py lines 419, 424). -/
def emptyDiff : Option GitResult → Bool
  | none => true
  | some r => pyStrip r.stdout = ""

/-- Model of `_analyze_single_file` (analysis.py lines 358-562).  Returns
`Except.error 1` when one of the diff subprocesses fails with an exit
code other than 1 (propagated `sys.exit(1)` from `_run_git_command`). -/
def analyze_single_file (fs : FsView) (env : GitEnv) (resp : GeminiAnalysisResp)
    (fi : FileInfo) : Except Nat (Option Analysis) := do
  if fs.isDirectory then return none
  else if ¬ fs.fileExists then return none
  else if fi.status = "??" then
    match fs.readContent with
    | none => return none
    | some content =>
      if pyStrip content = "" then return none
      else return geminiAnalyze resp fi.file fi.status
  else
    let cmd1 := ["git", "diff", "--", fi.file]
    let r1 ← run_git_command cmd1 (env cmd1)
    let r2 ←
      if emptyDiff r1 then
        let cmd2 := ["git", "diff", "--cached", "--", fi.file]
        run_git_command cmd2 (env cmd2)
      else pure r1
    let r3 ←
      if emptyDiff r2 then
        let cmd3 := ["git", "diff", "HEAD", "--", fi.file]
        run_git_command cmd3 (env cmd3)
      else pure r2
    match r3 with
    | none => return some (.fallback (create_fallback_analysis fi.file fi.status))
    | some res =>
      if pyStrip res.stdout = "" then
        match fs.readContent with
        | none => return some (.fallback (create_fallback_analysis fi.file fi.status))
        | some content =>
          if pyStrip content = "" then return none
          else return geminiAnalyze resp fi.file fi.status
      else return geminiAnalyze resp fi.file fi.status

/-! Section: GroupingEngine: `_group_files_by_features` (analysis.py lines 605-650)

An analysis dict enters grouping with its `file`, `feature_area` and
`file_patterns` entries (both always present after `_analyze_single_file`
or fallback; `commit` sets `analysis['file']`).  Python dicts are
insertion-ordered association lists here.  Group names are f-strings
`"Feature: {x}"`, `"Type: {x}"`, `"Individual: {x}"`; the three prefixes
are distinct, so the names are modelled injectively by a tagged key. -/

structure FileAnalysis where
  file : String
  feature_area : String
  file_patterns : List String
deriving DecidableEq, Repr

/-- The f-string group names of `final_groups`. -/
inductive GroupKey
  | feature (s : String)
  | typeKey (s : String)
  | individual (s : String)
deriving DecidableEq, Repr

/-- Python `defaultdict(list)` update `groups[key].append(file)`, insertion
ordered. -/
def addToGroup : List (String × List String) → String → String →
    List (String × List String)
  | [], key, f => [(key, [f])]
  | (k, fs) :: rest, key, f =>
    if k = key then (k, fs ++ [f]) :: rest else (k, fs) :: addToGroup rest key f

/-- Model of `feature_groups` (analysis.py lines 610-613). -/
def featureGroups (analyses : List FileAnalysis) : List (String × List String) :=
  analyses.foldl (fun acc a => addToGroup acc a.feature_area a.file) []

/-- Model of `dependency_groups` (analysis.py lines 615-619). -/
def depGroups (analyses : List FileAnalysis) : List (String × List String) :=
  analyses.foldl
    (fun acc a => a.file_patterns.foldl (fun acc2 p => addToGroup acc2 p a.file) acc) []

/-- The sort relation of `sorted(..., key=lambda x: len(x[1]),
reverse=True)`: Python's sort is stable, which `List.insertionSort` with
this relation reproduces. -/
abbrev sizeGE (a b : String × List String) : Prop := b.2.length ≤ a.2.length

/-- Python `group_name in final_groups` (dict key membership). -/
def hasKey (final : List (GroupKey × List String)) (k : GroupKey) : Bool :=
  final.any (fun e => e.1 = k)

/-- The inner search of the singleton-merge loop (analysis.py
lines 634-639): first dependency group containing the file with more
than one member. -/
def findMergeGroup (dgs : List (String × List String)) (file : String) :
    Option (String × List String) :=
  dgs.find? (fun g => g.2.contains file && decide (1 < g.2.length))

/-- One iteration of the loop over sorted feature groups
(analysis.py lines 625-642). -/
def processFeatureGroup (dgs : List (String × List String))
    (final : List (GroupKey × List String)) (fg : String × List String) :
    List (GroupKey × List String) :=
  if 1 < fg.2.length then final ++ [(GroupKey.feature fg.1, fg.2)]
  else
    match fg.2 with
    | [] => final
    | file :: _ =>
      match findMergeGroup dgs file with
      | some (depType, depFiles) =>
        if hasKey final (GroupKey.typeKey depType) then final
        else final ++ [(GroupKey.typeKey depType, depFiles)]
      | none => final ++ [(GroupKey.individual file, [file])]

/-- The trailing loop adding remaining multi-member dependency groups
(analysis.py lines 644-648). -/
def addRemainingDeps (dgs : List (String × List String))
    (final : List (GroupKey × List String)) : List (GroupKey × List String) :=
  dgs.foldl
    (fun acc g =>
      if 1 < g.2.length ∧ ¬ hasKey acc (GroupKey.typeKey g.1) then
        acc ++ [(GroupKey.typeKey g.1, g.2)]
      else acc) final

/-- Model of `_group_files_by_features` (analysis.py lines 605-650). -/
def group_files_by_features (analyses : List FileAnalysis) :
    List (GroupKey × List String) :=
  let fg := featureGroups analyses
  let dg := depGroups analyses
  let sortedFg := List.insertionSort sizeGE fg
  addRemainingDeps dg (sortedFg.foldl (processFeatureGroup dg) [])

/-! Section: Commit-message generation (analysis.py lines 652-743) -/

/-- The backtick character, used by the two `re.sub` cleanups. -/
def backtick : Char := Char.ofNat 96

/-- Whether a character list starts with three backticks. -/
def startsTicks3 : List Char → Bool
  | a :: b :: c :: _ => a = backtick ∧ b = backtick ∧ c = backtick
  | _ => false

/-- Given the characters after a candidate opening position (i.e. after
the first of three backticks), whether the regex
`<3 backticks>[^<backtick>]*<3 backticks>` matches there: the inner
character class cannot cross a backtick, so the match is three
backticks, a maximal backtick-free run, then three backticks. -/
def blockMatches (rest : List Char) : Bool :=
  let afterOpen := rest.drop 2
  startsTicks3 (afterOpen.drop (afterOpen.takeWhile (fun ch => ch ≠ backtick)).length)

/-- The characters after such a fenced-block match. -/
def blockRest (rest : List Char) : List Char :=
  let afterOpen := rest.drop 2
  (afterOpen.drop (afterOpen.takeWhile (fun ch => ch ≠ backtick)).length).drop 3

/-- Python `re.sub(r'<3 backticks>[^<backtick>]*<3 backticks>', '', s)`
(analysis.py line 698): leftmost non-overlapping removal of fenced
blocks. -/
def scanBlocksF : Nat → List Char → List Char
  | 0, cs => cs
  | _ + 1, [] => []
  | fuel + 1, c :: rest =>
    if startsTicks3 (c :: rest) ∧ blockMatches rest then scanBlocksF fuel (blockRest rest)
    else c :: scanBlocksF fuel rest

/-- Fenced-block removal (fuel wrapper; `fuel > cs.length` never runs
out, since `blockRest rest` is shorter than `c :: rest`). -/
def scanBlocks (cs : List Char) : List Char :=
  scanBlocksF (cs.length + 1) cs

/-- Whether a character list starts with one backtick. -/
def startsTicks1 : List Char → Bool
  | a :: _ => a = backtick
  | _ => false

/-- The maximal backtick-free run at the head of `rest`. -/
def inlineRun (rest : List Char) : List Char :=
  rest.takeWhile (fun ch => ch ≠ backtick)

/-- Whether `<backtick>([^<backtick>]+)<backtick>` matches at a position
whose following characters are `rest`. -/
def inlineMatches (rest : List Char) : Bool :=
  inlineRun rest ≠ [] ∧ startsTicks1 (rest.drop (inlineRun rest).length)

/-- The characters after such an inline-code match. -/
def inlineRest (rest : List Char) : List Char :=
  (rest.drop (inlineRun rest).length).drop 1

/-- Python `re.sub(r'<backtick>([^<backtick>]+)<backtick>', r'\1', s)`
(analysis.py line 699): unwrap inline code spans, leftmost
non-overlapping. -/
def unwrapInlineF : Nat → List Char → List Char
  | 0, cs => cs
  | _ + 1, [] => []
  | fuel + 1, c :: rest =>
    if c = backtick ∧ inlineMatches rest then
      inlineRun rest ++ unwrapInlineF fuel (inlineRest rest)
    else c :: unwrapInlineF fuel rest

/-- Inline-code unwrapping (fuel wrapper; `fuel > cs.length` never runs
out, since `inlineRest rest` is shorter than `c :: rest`). -/
def unwrapInline (cs : List Char) : List Char :=
  unwrapInlineF (cs.length + 1) cs

/-- The cleanup pipeline applied to the Gemini response text
(analysis.py lines 695-703): strip, remove fenced blocks, unwrap inline
code, strip, first line, strip. -/
def cleanMessage (t : String) : String :=
  let m0 := pyStrip t
  let m1 := String.mk (scanBlocks m0.data)
  let m2 := String.mk (unwrapInline m1.data)
  pyStrip (firstLine (pyStrip m2))

/-- Model of `_create_fallback_commit_message` (analysis.py lines 716-743). -/
def create_fallback_commit_message (files : List String) (group_context : String) :
    String :=
  match files with
  | [file_path] =>
    let file_ext := pyToLower (splitextExt file_path)
    if file_ext ∈ [".js", ".jsx", ".ts", ".tsx"] then
      "feat(frontend): update " ++ basenameStr file_path
    else if file_ext ∈ [".py"] then "feat(backend): update " ++ basenameStr file_path
    else if file_ext ∈ [".css", ".scss", ".sass"] then
      "style: update " ++ basenameStr file_path
    else if file_ext ∈ [".json"] then "chore(config): update " ++ basenameStr file_path
    else if file_ext ∈ [".md"] then "docs: update " ++ basenameStr file_path
    else "chore: update " ++ basenameStr file_path
  | _ =>
    if strContains group_context "Feature:" then
      "feat(" ++ pyToLower (pyReplace group_context "Feature: " "") ++ "): update " ++
        toString files.length ++ " files"
    else if strContains group_context "Type:" then
      "chore(" ++ pyToLower (pyReplace group_context "Type: " "") ++ "): update " ++
        toString files.length ++ " files"
    else "chore: update " ++ toString files.length ++ " files"

/-- Outcome of the Gemini generation call for a commit message. -/
inductive GeminiTextResp
  | noResponse
  | emptyText
  | raised
  | text (s : String)
deriving DecidableEq, Repr

/-- Model of `_generate_commit_message_for_group` (analysis.py lines 652-714):
stage the files, read the staged diff, unstage; an empty or failed diff
returns `None` with no fallback; every failing generation outcome (no
response, empty text, exception, or a cleaned message that is empty or
shorter than 10 characters) yields the deterministic fallback message. -/
def generate_commit_message_for_group (env : GitEnv) (resp : GeminiTextResp)
    (files : List String) (group_context : String) : Except Nat (Option String) := do
  let addCmd := ["git", "add", "--"] ++ files
  let _ ← run_git_command addCmd (env addCmd)
  let diffCmd := ["git", "diff", "--cached"]
  let diffRes ← run_git_command diffCmd (env diffCmd)
  let resetCmd := ["git", "reset", "HEAD", "--"] ++ files
  let _ ← run_git_command resetCmd (env resetCmd)
  match diffRes with
  | none => return none
  | some r =>
    if r.stdout = "" then return none
    else
      match resp with
      | .noResponse => return some (create_fallback_commit_message files group_context)
      | .emptyText => return some (create_fallback_commit_message files group_context)
      | .raised => return some (create_fallback_commit_message files group_context)
      | .text t =>
        let cm := cleanMessage t
        if cm = "" ∨ pyLen cm < 10 then
          return some (create_fallback_commit_message files group_context)
        else return some cm

/-! Section: CommitWorkflow: one iteration of the interactive selection loop
(`commit`, analysis.py lines 1198-1286)

`remaining_files_to_commit` is a Python set of paths, modelled as a list
with set-membership semantics (`difference_update` is a filter).  The
prompt answers are oracle inputs: the group selection (`questionary.select`
returning `None` models a dismissed prompt), the generated message
(result of `_generate_commit_message_for_group`), the action choice, and
the boolean returned by `_commit_files`.  A `_commit_files` or generation
call that hits `sys.exit(1)` terminates the whole process; the step
function models the surviving executions. -/

/-- The selection prompt answer (analysis.py lines 1226-1245). -/
inductive Selection
  | smartGroup (files : List String) (context : String)
  | manual (picked : Option (List String))
  | exitChoice
  | noAnswer
deriving DecidableEq, Repr

/-- The action prompt answer (analysis.py lines 1265-1268).  `noAction`
models a dismissed prompt (`ask()` returning `None`), which matches no
branch, like Skip. -/
inductive UserAction
  | commitAct
  | editMessage (edited : Option String)
  | aiReview
  | skip
  | noAction
deriving DecidableEq, Repr

/-- Python `selected_files` after the selection branches (analysis.py
lines 1232-1245): a smart group contributes its files; a manual checkbox
answer contributes its picked files (a dismissed or empty checkbox
leaves the selection empty, Python falsiness). -/
def selected_files_of (sel : Selection) : List String :=
  match sel with
  | .smartGroup fs _ => fs
  | .manual (some ps) => ps
  | .manual none => []
  | .exitChoice => []
  | .noAnswer => []

/-- Result of one pass through the inner interactive loop body. -/
inductive StepOutcome
  | exited
  | looped (remaining : List String)
deriving DecidableEq, Repr

/-- The tail of the interactive loop body after a non-exit selection
(analysis.py lines 1247-1286): an empty selection or a failed message
generation continues unchanged (`continue`); Commit — and Edit Message
with a truthy edited text (`if edited_message and self._commit_files(...)`,
where `None` and `""` are falsy, modelled by `edited.getD ""` being
nonempty) — removes the selected files from the pending set
(`difference_update`) exactly when `_commit_files` returned `True`; Get
AI Review and Skip (and a dismissed action prompt) leave the set
unchanged. -/
def commit_loop_body (remaining selected : List String) (genResult : Option String)
    (action : UserAction) (commitResult : Bool) : List String :=
  if selected = [] then remaining
  else if genResult = none then remaining
  else
    match action with
    | .commitAct =>
      if commitResult then remaining.filter (fun f => ! selected.contains f)
      else remaining
    | .editMessage edited =>
      if edited.getD "" ≠ "" ∧ commitResult then
        remaining.filter (fun f => ! selected.contains f)
      else remaining
    | .aiReview => remaining
    | .skip => remaining
    | .noAction => remaining

/-- One iteration of the interactive loop body (analysis.py
lines 1226-1286): exit or a dismissed selection prompt returns from
`commit`; otherwise the loop continues with the pending set computed by
`commit_loop_body`. -/
def interactive_step (remaining : List String) (sel : Selection)
    (genResult : Option String) (action : UserAction) (commitResult : Bool) :
    StepOutcome :=
  match sel with
  | .noAnswer => .exited
  | .exitChoice => .exited
  | .smartGroup fs ctx =>
    .looped (commit_loop_body remaining (selected_files_of (.smartGroup fs ctx))
      genResult action commitResult)
  | .manual picked =>
    .looped (commit_loop_body remaining (selected_files_of (.manual picked))
      genResult action commitResult)

/-! Section: Concrete collaborator environments used by the theorems below -/

/-- A git environment where every command completes with empty output. -/
def allOkEnv : GitEnv := fun _ => .completed ""

/-- A git environment where `git commit` fails with exit code 1 (for
example `--no-verify` commit rejected, or nothing committable) and every
other command succeeds. -/
def failedCommitEnv : GitEnv := fun cmd =>
  if cmd.contains "commit" then .failed 1 "" "commit failed" else .completed ""

/-- A git environment where `git add` fails with exit code 128 (for
example an unmatched pathspec) mid-workflow. -/
def failedAddEnv : GitEnv := fun cmd =>
  if cmd.contains "add" then .failed 128 "" "fatal: pathspec did not match" else .completed ""

/-- A git environment where every diff command reports a nonempty diff
and everything else succeeds. -/
def diffOkEnv : GitEnv := fun cmd =>
  if cmd.contains "diff" then .completed "diff --git a/a.ts b/a.ts" else .completed ""

/-- Whether a Gemini classification outcome is a failure in the sense of
the spec: response absent, text empty, unparseable, an exception, or a
parsed object missing one of the required fields. -/
def geminiFails : GeminiAnalysisResp → Bool
  | .noResponse => true
  | .emptyText => true
  | .unparseable => true
  | .raised => true
  | .parsed keys => decide (REQUIRED_FIELDS.filter (fun fld => ¬ keys.contains fld) ≠ [])

/-- Two classified files sharing a feature area and a pattern tag: the
input refuting the partition claim C2. -/
def partitionCounterInput : List FileAnalysis :=
  [⟨"a.ts", "frontend", ["source_code"]⟩, ⟨"b.ts", "frontend", ["source_code"]⟩]

/-- Four classified files forming two equal-sized feature groups whose
first-appearance order differs from first-file-path order: the input
refuting the tie-break claim C7. -/
def tieBreakCounterInput : List FileAnalysis :=
  [⟨"z.py", "beta", []⟩, ⟨"a.ts", "alpha", []⟩, ⟨"y.py", "beta", []⟩, ⟨"b.ts", "alpha", []⟩]

/-- Whether a group name is a `"Feature: ..."` name. -/
def isFeatureKey : GroupKey → Bool
  | .feature _ => true
  | _ => false

/-- Lexicographic path order on character lists (ascending path order of
the claim's tie-break). -/
def lexLE : List Char → List Char → Bool
  | [], _ => true
  | _ :: _, [] => false
  | a :: as, b :: bs => if a = b then lexLE as bs else decide (a < b)

/-- The emitted-order property claimed by C7 for the grouping output:
any feature group emitted before another feature group has strictly more
files, or equally many and a first file that is not later in ascending
path order. -/
def claimedFeatureOrder (out : List (GroupKey × List String)) : Prop :=
  out.Pairwise (fun e1 e2 =>
    isFeatureKey e1.1 = true → isFeatureKey e2.1 = true →
      e2.2.length < e1.2.length ∨
        (e1.2.length = e2.2.length ∧ lexLE (e1.2.headD "").data (e2.2.headD "").data = true))

/-- The disjointness property claimed by C2: no file in two emitted
groups. -/
def claimedDisjointness (out : List (GroupKey × List String)) : Prop :=
  out.Pairwise (fun e1 e2 => ∀ f ∈ e1.2, f ∉ e2.2)

/-! Section: Helper lemmas -/

/-- If `needle` is a suffix of `hay` then it is a substring of `hay`. -/
theorem strContains_of_suffix (hay needle : String)
    (h : ∃ t, t ++ needle.data = hay.data) : strContains hay needle = true := by
  obtain ⟨t, ht⟩ := h
  unfold strContains
  rw [List.any_eq_true]
  refine ⟨t.length, List.mem_range.mpr ?_, ?_⟩
  · have : t.length + needle.data.length = hay.data.length := by
      rw [← ht, List.length_append]
    omega
  · rw [decide_eq_true_eq, ← ht, List.drop_left, List.take_length]

/-- The basename of a path is a suffix of the path. -/
theorem basename_suffix (p : String) : ∃ t, t ++ (basenameStr p).data = p.data := by
  suffices h : ∀ cs : List Char,
      ∃ t, t ++ (cs.foldl (fun acc c => if c = '/' then [] else acc ++ [c]) []) = cs by
    simpa [basenameStr] using h p.data
  intro cs
  induction cs using List.reverseRecOn with
  | nil => exact ⟨[], rfl⟩
  | append_singleton cs c ih =>
    rw [List.foldl_append]
    by_cases hc : c = '/'
    · subst hc
      exact ⟨cs ++ ['/'], by simp⟩
    · obtain ⟨t, ht⟩ := ih
      exact ⟨t, by simp [hc, ← List.append_assoc, ht]⟩

/-- Splitting a failing `Except` bind. -/
theorem except_bind_error {α β : Type} (x : Except Nat α) (f : α → Except Nat β) (c : Nat)
    (h : (x >>= f) = .error c) : x = .error c ∨ ∃ a, x = .ok a ∧ f a = .error c := by
  cases x with
  | error e =>
    simp only [bind, Except.bind] at h
    injection h with hec
    exact Or.inl (by rw [hec])
  | ok a =>
    simp only [bind, Except.bind] at h
    exact Or.inr ⟨a, rfl, h⟩

/-- Lemma: `run_git_command` signals a process exit only with status 1. -/
theorem run_git_command_error_eq_one (command : List String) (outcome : GitOutcome)
    (c : Nat) (h : run_git_command command outcome = .error c) : c = 1 := by
  cases outcome with
  | completed out => simp [run_git_command] at h
  | failed rc out err =>
    simp only [run_git_command] at h
    split_ifs at h with h1 h2
    all_goals simp_all

/-! Section: C1 — commit failure handling in `_commit_files` -/

/-- C1 (code bug): when the underlying `git commit` call fails with exit
code 1 while `git add` succeeded, `_commit_files` nevertheless reports
success (`True`), because `_run_git_command` swallows the
`CalledProcessError` and the `except Exception` rollback branch never
runs; the selection is not unstaged and the caller removes the files
from its pending set.  This contradicts the claimed (and clearly
intended, per the dead rollback code) unstage-report-reoffer behavior. -/
theorem commit_files_reports_success_on_failed_commit :
    commit_files failedCommitEnv ["src/a.ts"] "feat(auth): add token check" true =
      .ok true := rfl

/-! Section: C9 — process exit discipline -/

/-- C9 counterexample: a mid-workflow `git add` failure with exit code
128 (not an unmet prerequisite) terminates the process with non-zero
status 1, through the `sys.exit(1)` in `_run_git_command`. -/
theorem mid_workflow_git_failure_exits_nonzero :
    commit_files failedAddEnv ["a.txt"] "chore: tidy" true = .error 1 := rfl

/-- C9 (amended): the process exits with non-zero status exactly when
some git invocation fails with an exit code other than 1 — at any point
of the workflow, not only during prerequisite checks — and that exit
status is always 1; a git failure with exit code 1 and any collaborator
response failure never terminate the process. -/
theorem process_exit_characterization (command : List String) (outcome : GitOutcome)
    (c : Nat) :
    (run_git_command command outcome = .error c ↔
      c = 1 ∧ ∃ rc out err, outcome = .failed rc out err ∧ rc ≠ 1) ∧
    (∀ env files message nv, commit_files env files message nv = .error c → c = 1) := by
  constructor
  · cases outcome with
    | completed out => simp [run_git_command]
    | failed rc out err =>
      simp only [run_git_command]
      split_ifs with h1 h2
      · constructor
        · intro h
          simp at h
        · rintro ⟨hc, rc2, out2, err2, heq, hne⟩
          injection heq with ha hb hcc
          exact absurd (ha ▸ h1.1) hne
      · constructor
        · intro h
          injection h with hc
          exact ⟨hc.symm, rc, out, err, rfl, h2⟩
        · rintro ⟨hc, -⟩
          rw [hc]
      · push_neg at h2
        constructor
        · intro h
          simp at h
        · rintro ⟨hc, rc2, out2, err2, heq, hne⟩
          injection heq with ha hb hcc
          exact absurd (ha ▸ h2) hne
  · intro env files message nv h
    simp only [commit_files] at h
    rcases except_bind_error _ _ _ h with h1 | ⟨a, ha, h2⟩
    · exact run_git_command_error_eq_one _ _ _ h1
    · rcases except_bind_error _ _ _ h2 with h3 | ⟨b, hb, h4⟩
      · exact run_git_command_error_eq_one _ _ _ h3
      · simp [pure, Except.pure] at h4

/-- C9 witness: the characterization applied to a concrete failing
outcome. -/
theorem process_exit_characterization_witness :
    run_git_command ["git", "add", "--", "x"] (.failed 128 "" "boom") = .error 1 :=
  (process_exit_characterization ["git", "add", "--", "x"] (.failed 128 "" "boom") 1).1.mpr
    ⟨rfl, 128, "", "boom", rfl, by decide⟩

/-! Section: C4 — the dependency pass matches substrings, not base names -/

/-- C4 counterexample: `yarn.lock.old` is claimed by the dependency pass
(`"yarn.lock" in f` is a substring test) although its base name is not
one of the fixed lock-file names. -/
theorem dependency_pass_claims_non_lockfile :
    auto_commit_dependency_selection ["yarn.lock.old"] = ["yarn.lock.old"] ∧
      basenameStr "yarn.lock.old" ∉ GENERIC_DEPENDENCY_FILES := by
  constructor
  · decide
  · decide

/-- C4 (amended): the dependency pass commits exactly those paths that
contain one of the fixed lock-file names as a substring; in particular
every path whose base name exactly matches one of those names is
committed, but so are paths like `yarn.lock.old` that merely contain a
lock-file name. -/
theorem dependency_pass_substring_characterization (all_files : List String) (f : String) :
    (f ∈ auto_commit_dependency_selection all_files ↔
      f ∈ all_files ∧ ∃ dep ∈ GENERIC_DEPENDENCY_FILES, strContains f dep = true) ∧
    (basenameStr f ∈ GENERIC_DEPENDENCY_FILES → f ∈ all_files →
      f ∈ auto_commit_dependency_selection all_files) := by
  have hiff : f ∈ auto_commit_dependency_selection all_files ↔
      f ∈ all_files ∧ ∃ dep ∈ GENERIC_DEPENDENCY_FILES, strContains f dep = true := by
    unfold auto_commit_dependency_selection
    rw [List.mem_filter, List.any_eq_true]
  refine ⟨hiff, fun hbase hmem => ?_⟩
  exact hiff.mpr ⟨hmem, basenameStr f, hbase,
    strContains_of_suffix f (basenameStr f) (basename_suffix f)⟩

/-- C4 witness: the amended characterization applied to a concrete file
list containing `yarn.lock` (base-name match committed). -/
theorem dependency_pass_substring_characterization_witness :
    "yarn.lock" ∈ auto_commit_dependency_selection ["src/a.ts", "yarn.lock"] :=
  (dependency_pass_substring_characterization ["src/a.ts", "yarn.lock"] "yarn.lock").2
    (by decide) (by decide)

/-! Section: C6 — pass exclusivity -/

/-- A porcelain line whose status code contains `D` contributes nothing
to the scan (analysis.py lines 243-245). -/
theorem parse_status_line_deleted (line sc pi : String)
    (hsplit : splitFirstSpace (pyStrip line) = some (sc, pi))
    (hD : sc.data.contains 'D' = true) : parse_status_line line = none := by
  unfold parse_status_line
  by_cases h0 : pyStrip line = ""
  · simp [h0]
  · simp only [h0, if_false, hsplit, hD, if_true]

/-- Every record kept by the `processed_files` deduplication comes from
the candidate list. -/
theorem dedup_records_subset (cands : List FileInfo) (seen : List String) :
    ∀ rec ∈ dedup_records cands seen, rec ∈ cands := by
  induction cands generalizing seen with
  | nil => simp [dedup_records]
  | cons r rs ih =>
    intro rec hrec
    unfold dedup_records at hrec
    split_ifs at hrec with hs
    · exact List.mem_cons_of_mem _ (ih _ rec hrec)
    · rcases List.mem_cons.mp hrec with h | h
      · exact h ▸ List.mem_cons_self _ _
      · exact List.mem_cons_of_mem _ (ih _ rec h)

/-- C6 counterexample: `yarn.lock.png` is claimed by the dependency pass
(substring `yarn.lock`) and also by the asset pass (extension `.png`),
because both passes are applied to the same scanned file list
(analysis.py lines 1120-1122) — the dependency and asset passes are not
mutually exclusive. -/
theorem dependency_and_asset_passes_overlap :
    auto_commit_dependency_selection ["yarn.lock.png"] = ["yarn.lock.png"] ∧
      auto_commit_image_selection ["yarn.lock.png"] = ["yarn.lock.png"] := by
  constructor
  · decide
  · decide

/-- C6 (amended): the cleanup pass is exclusive with the later passes —
every record of the scan that feeds the dependency and asset passes
comes either from the untracked-file query or from a porcelain line that
is not a deletion (deleted lines are dropped, see
`parse_status_line_deleted`) — but the dependency and asset passes both
select from the same scanned pool, so a path matching both rules is
claimed by both passes. -/
theorem pass_pool_exclusivity (lsOut statusOut : String) (all_files : List String) :
    (∀ rec ∈ get_changed_files lsOut statusOut,
      rec ∈ untracked_candidates lsOut ∨
        ∃ ln ∈ status_lines statusOut, parse_status_line ln = some rec) ∧
    (∀ line sc pi, splitFirstSpace (pyStrip line) = some (sc, pi) →
      sc.data.contains 'D' = true → parse_status_line line = none) ∧
    (∀ f ∈ auto_commit_dependency_selection all_files, f ∈ all_files) ∧
    (∀ f ∈ auto_commit_image_selection all_files, f ∈ all_files) := by
  refine ⟨?_, fun line sc pi h1 h2 => parse_status_line_deleted line sc pi h1 h2, ?_, ?_⟩
  · intro rec hrec
    have hmem := dedup_records_subset _ _ rec hrec
    rcases List.mem_append.mp hmem with h | h
    · exact Or.inl h
    · obtain ⟨ln, hln, hparse⟩ := List.mem_filterMap.mp h
      exact Or.inr ⟨ln, hln, hparse⟩
  · intro f hf
    exact (List.mem_filter.mp hf).1
  · intro f hf
    exact (List.mem_filter.mp hf).1

/-- C6 witness: the amended statement applied to a concrete scan (a
deletion line parses to nothing; the selections select from the pool). -/
theorem pass_pool_exclusivity_witness :
    parse_status_line " D gone.png" = none :=
  (pass_pool_exclusivity "" " D gone.png" []).2.1 " D gone.png" "D" "gone.png"
    (by decide) (by decide)

/-! Section: C3 — classification fallback -/

/-- Every failing collaborator outcome makes the response-validation
tail of `_analyze_single_file` return the deterministic fallback. -/
theorem geminiAnalyze_fallback (resp : GeminiAnalysisResp) (fp st : String)
    (h : geminiFails resp = true) :
    geminiAnalyze resp fp st = some (.fallback (create_fallback_analysis fp st)) := by
  cases resp <;> simp_all [geminiAnalyze, geminiFails]

/-- C3 counterexample: an empty untracked file is in the scanned pool
but `_analyze_single_file` returns `None` for it (analysis.py
lines 386-388) — no fallback classification is attached, the file is
counted as a failed analysis and dropped from the interactive pending
set, and if every file fails the workflow exits (lines 1162-1171).  So
classification can leave a remaining file unclassified. -/
theorem empty_new_file_left_unclassified :
    analyze_single_file ⟨false, true, some ""⟩ allOkEnv .noResponse
      ⟨"??", "untracked-empty.txt"⟩ = .ok none := rfl

/-- C3 (amended): whenever the collaborator's response is absent,
malformed, or missing a required field, a file whose content or diff is
actually obtainable and nonempty keeps the deterministic fallback
classification; but files that are directories, missing from disk,
unreadable, or empty are skipped with no classification at all. -/
theorem classification_falls_back_on_collaborator_failure (fs : FsView) (env : GitEnv)
    (resp : GeminiAnalysisResp) (fi : FileInfo)
    (hdir : fs.isDirectory = false) (hex : fs.fileExists = true)
    (hfail : geminiFails resp = true) :
    (∀ content, fi.status = "??" → fs.readContent = some content →
      pyStrip content ≠ "" →
      analyze_single_file fs env resp fi =
        .ok (some (.fallback (create_fallback_analysis fi.file fi.status)))) ∧
    (∀ out, fi.status ≠ "??" → env ["git", "diff", "--", fi.file] = .completed out →
      pyStrip out ≠ "" →
      analyze_single_file fs env resp fi =
        .ok (some (.fallback (create_fallback_analysis fi.file fi.status)))) := by
  constructor
  · intro content hst hread hne
    simp [analyze_single_file, hdir, hex, hst, hread, hne, pure, Except.pure,
      geminiAnalyze_fallback resp fi.file _ hfail]
  · intro out hst hdiff hne
    simp [analyze_single_file, hdir, hex, hst, hdiff, run_git_command, emptyDiff, hne,
      bind, Except.bind, pure, Except.pure,
      geminiAnalyze_fallback resp fi.file _ hfail]

/-- C3 witness: a readable new file with a failing collaborator keeps
its fallback classification. -/
theorem classification_falls_back_witness :
    analyze_single_file ⟨false, true, some "x = 1"⟩ allOkEnv .noResponse ⟨"??", "app.py"⟩ =
      .ok (some (.fallback (create_fallback_analysis "app.py" "??"))) :=
  (classification_falls_back_on_collaborator_failure ⟨false, true, some "x = 1"⟩ allOkEnv
    .noResponse ⟨"??", "app.py"⟩ rfl rfl rfl).1 "x = 1" rfl rfl (by decide)

/-! Section: C8 — commit-message generation fallback -/

/-- C8: for a selected group whose staged diff is nonempty, every
failing generation outcome (no response, empty text, an exception, or a
response whose cleaned first line is empty or shorter than 10
characters) yields exactly the deterministic templated fallback message,
so the group is never left without a proposed message. -/
theorem generation_failure_yields_fallback_message (env : GitEnv) (resp : GeminiTextResp)
    (files : List String) (group_context : String) (a out b : String)
    (hadd : env (["git", "add", "--"] ++ files) = .completed a)
    (hdiff : env ["git", "diff", "--cached"] = .completed out)
    (hreset : env (["git", "reset", "HEAD", "--"] ++ files) = .completed b)
    (hout : out ≠ "")
    (hfail : resp = .noResponse ∨ resp = .emptyText ∨ resp = .raised ∨
      ∃ t, resp = .text t ∧ (cleanMessage t = "" ∨ pyLen (cleanMessage t) < 10)) :
    generate_commit_message_for_group env resp files group_context =
      .ok (some (create_fallback_commit_message files group_context)) := by
  have hadd2 : env ("git" :: "add" :: "--" :: files) = .completed a := by
    simpa using hadd
  have hreset2 : env ("git" :: "reset" :: "HEAD" :: "--" :: files) = .completed b := by
    simpa using hreset
  rcases hfail with h | h | h | ⟨t, ht, hshort⟩ <;> subst_vars <;>
    simp [generate_commit_message_for_group, hadd2, hdiff, hreset2, run_git_command,
      bind, Except.bind, pure, Except.pure, hout]
  rcases hshort with h | h
  · intro hcm
    exact absurd h hcm
  · intro hcm hlen
    exfalso
    have he : (cleanMessage t).length = pyLen (cleanMessage t) := rfl
    omega

/-- C8 witness: a two-file feature group with a failing generator gets
the templated `feat(frontend): update 2 files` message. -/
theorem generation_failure_yields_fallback_message_witness :
    generate_commit_message_for_group diffOkEnv .noResponse ["a.ts", "b.ts"]
      "Feature: frontend" = .ok (some "feat(frontend): update 2 files") := by
  have h := generation_failure_yields_fallback_message diffOkEnv .noResponse
    ["a.ts", "b.ts"] "Feature: frontend" "" "diff --git a/a.ts b/a.ts" ""
    (by decide) (by decide) (by decide) (by decide) (Or.inl rfl)
  rw [h]
  rfl

/-! Section: C10 — the interactive pending set only shrinks -/

/-- C10: within one interactive iteration the pending set only shrinks:
whenever the loop body continues with a new pending set, that set is a
subset of the old one; a file is removed only if it was part of the
selection, `_commit_files` reported success, and the action was Commit
or Edit Message with a nonempty edited text; and Skip, Get AI Review, a
failed message generation, and a failed commit all leave the pending set
unchanged. -/
theorem commit_loop_body_spec (remaining selected : List String)
    (genResult : Option String) (action : UserAction) (commitResult : Bool) :
    (∀ f ∈ commit_loop_body remaining selected genResult action commitResult,
      f ∈ remaining) ∧
    (∀ f ∈ remaining,
      f ∉ commit_loop_body remaining selected genResult action commitResult →
        f ∈ selected ∧ commitResult = true ∧
          (action = .commitAct ∨ ∃ e, action = .editMessage (some e) ∧ e ≠ "")) ∧
    ((action = .skip ∨ action = .aiReview ∨ genResult = none ∨ commitResult = false) →
      commit_loop_body remaining selected genResult action commitResult = remaining) := by
  have hfilter :
      (∀ f ∈ remaining.filter (fun f => ! selected.contains f), f ∈ remaining) ∧
        ∀ f ∈ remaining, f ∉ remaining.filter (fun f => ! selected.contains f) →
          f ∈ selected := by
    constructor
    · intro f hf
      exact (List.mem_filter.mp hf).1
    · intro f hf hnf
      by_contra hsel
      refine hnf (List.mem_filter.mpr ⟨hf, ?_⟩)
      simp only [Bool.not_eq_true']
      simp [List.contains, hsel]
  unfold commit_loop_body
  by_cases h1 : selected = []
  · rw [if_pos h1]
    exact ⟨fun f hf => hf, fun f hf hnf => absurd hf hnf, fun _ => rfl⟩
  · rw [if_neg h1]
    by_cases h2 : genResult = none
    · rw [if_pos h2]
      exact ⟨fun f hf => hf, fun f hf hnf => absurd hf hnf, fun _ => rfl⟩
    · rw [if_neg h2]
      cases action with
      | commitAct =>
        dsimp only
        by_cases hc : commitResult = true
        · rw [if_pos hc]
          refine ⟨hfilter.1, ?_, ?_⟩
          · intro f hf hnf
            exact ⟨hfilter.2 f hf hnf, hc, Or.inl rfl⟩
          · rintro (h | h | h | h)
            · exact absurd h (by simp)
            · exact absurd h (by simp)
            · exact absurd h h2
            · rw [h] at hc
              exact absurd hc (by simp)
        · rw [if_neg hc]
          exact ⟨fun f hf => hf, fun f hf hnf => absurd hf hnf, fun _ => rfl⟩
      | editMessage edited =>
        dsimp only
        by_cases hc : edited.getD "" ≠ "" ∧ commitResult = true
        · rw [if_pos hc]
          refine ⟨hfilter.1, ?_, ?_⟩
          · intro f hf hnf
            refine ⟨hfilter.2 f hf hnf, hc.2, Or.inr ?_⟩
            cases edited with
            | none => exact absurd rfl hc.1
            | some e => exact ⟨e, rfl, by simpa using hc.1⟩
          · rintro (h | h | h | h)
            · exact absurd h (by simp)
            · exact absurd h (by simp)
            · exact absurd h h2
            · rw [h] at hc
              exact absurd hc.2 (by simp)
        · rw [if_neg hc]
          exact ⟨fun f hf => hf, fun f hf hnf => absurd hf hnf, fun _ => rfl⟩
      | aiReview =>
        exact ⟨fun f hf => hf, fun f hf hnf => absurd hf hnf, fun _ => rfl⟩
      | skip =>
        exact ⟨fun f hf => hf, fun f hf hnf => absurd hf hnf, fun _ => rfl⟩
      | noAction =>
        exact ⟨fun f hf => hf, fun f hf hnf => absurd hf hnf, fun _ => rfl⟩

/-- C10: within one interactive iteration the pending set only shrinks:
whenever the loop body continues with a new pending set, that set is a
subset of the old one; a file is removed only if it was part of the
selection, `_commit_files` reported success, and the action was Commit
or Edit Message with a nonempty edited text; and Skip, Get AI Review, a
failed message generation, and a failed commit all leave the pending set
unchanged. -/
theorem interactive_pending_set_monotone (remaining : List String) (sel : Selection)
    (genResult : Option String) (action : UserAction) (commitResult : Bool) :
    (∀ r, interactive_step remaining sel genResult action commitResult = .looped r →
      (∀ f ∈ r, f ∈ remaining) ∧
        ∀ f ∈ remaining, f ∉ r →
          f ∈ selected_files_of sel ∧ commitResult = true ∧
            (action = .commitAct ∨ ∃ e, action = .editMessage (some e) ∧ e ≠ "")) ∧
    ((action = .skip ∨ action = .aiReview ∨ genResult = none ∨ commitResult = false) →
      interactive_step remaining sel genResult action commitResult = .exited ∨
        interactive_step remaining sel genResult action commitResult =
          .looped remaining) := by
  cases sel with
  | noAnswer =>
    exact ⟨fun r hr => StepOutcome.noConfusion hr, fun _ => Or.inl rfl⟩
  | exitChoice =>
    exact ⟨fun r hr => StepOutcome.noConfusion hr, fun _ => Or.inl rfl⟩
  | smartGroup fs ctx =>
    have hspec := commit_loop_body_spec remaining
      (selected_files_of (.smartGroup fs ctx)) genResult action commitResult
    constructor
    · intro r hr
      have hr2 : commit_loop_body remaining (selected_files_of (.smartGroup fs ctx))
          genResult action commitResult = r := by
        simpa [interactive_step] using hr
      exact hr2 ▸ ⟨hspec.1, hspec.2.1⟩
    · intro hcase
      exact Or.inr (by simp [interactive_step, hspec.2.2 hcase])
  | manual picked =>
    have hspec := commit_loop_body_spec remaining
      (selected_files_of (.manual picked)) genResult action commitResult
    constructor
    · intro r hr
      have hr2 : commit_loop_body remaining (selected_files_of (.manual picked))
          genResult action commitResult = r := by
        simpa [interactive_step] using hr
      exact hr2 ▸ ⟨hspec.1, hspec.2.1⟩
    · intro hcase
      exact Or.inr (by simp [interactive_step, hspec.2.2 hcase])

/-- C10 witness: committing a selected file removes exactly it; the
result is a subset of the previous pending set. -/
theorem interactive_pending_set_monotone_witness :
    ∀ f ∈ (["b"] : List String), f ∈ (["a", "b"] : List String) :=
  ((interactive_pending_set_monotone ["a", "b"] (.smartGroup ["a"] "Feature: x")
    (some "feat(x): add a") .commitAct true).1 ["b"] (by decide)).1

/-! Section: C5 — the scanner contract -/

/-- The `processed_files` deduplication yields pairwise distinct paths,
none of which was already seen. -/
theorem dedup_records_nodup (cands : List FileInfo) (seen : List String) :
    ((dedup_records cands seen).map FileInfo.file).Nodup ∧
      ∀ f ∈ (dedup_records cands seen).map FileInfo.file, seen.contains f = false := by
  induction cands generalizing seen with
  | nil => simp [dedup_records]
  | cons r rs ih =>
    unfold dedup_records
    split_ifs with hs
    · exact ih seen
    · obtain ⟨hnd, hseen⟩ := ih (r.file :: seen)
      constructor
      · simp only [List.map_cons, List.nodup_cons]
        refine ⟨fun hmem => ?_, hnd⟩
        have hcontra := hseen r.file hmem
        simp [List.contains] at hcontra
      · intro f hf
        simp only [List.map_cons, List.mem_cons] at hf
        rcases hf with hf | hf
        · subst hf
          simpa using hs
        · have h2 := hseen f hf
          simp only [List.contains_cons, Bool.or_eq_false_iff] at h2
          exact h2.2

/-- The first candidate record for a path not yet seen survives the
deduplication. -/
theorem dedup_records_keeps_first (cands : List FileInfo) (seen : List String)
    (f : String) (r : FileInfo) (hseen : seen.contains f = false)
    (hfind : cands.find? (fun rec => rec.file = f) = some r) :
    r ∈ dedup_records cands seen := by
  induction cands generalizing seen with
  | nil => simp at hfind
  | cons c cs ih =>
    unfold dedup_records
    by_cases hc : c.file = f
    · rw [List.find?_cons_of_pos _ (by simpa using hc)] at hfind
      injection hfind with hfr
      subst hfr
      have hs2 : seen.contains c.file = false := by
        rw [hc]
        exact hseen
      rw [if_neg (by simpa using hs2)]
      exact List.mem_cons_self _ _
    · rw [List.find?_cons_of_neg _ (by simpa using hc)] at hfind
      split_ifs with hs
      · exact ih seen hseen hfind
      · refine List.mem_cons_of_mem _ (ih (c.file :: seen) ?_ hfind)
        simp only [List.contains_cons, Bool.or_eq_false_iff]
        exact ⟨beq_eq_false_iff_ne.mpr (fun h => hc h.symm), hseen⟩

/-- Every record of `untracked_candidates` carries status `??`. -/
theorem untracked_candidates_status (lsOut : String) :
    ∀ rec ∈ untracked_candidates lsOut, rec.status = "??" := by
  intro rec hrec
  unfold untracked_candidates at hrec
  split_ifs at hrec with h
  · simp at hrec
  · obtain ⟨ln, _, hln⟩ := List.mem_filterMap.mp hrec
    split_ifs at hln
    injection hln with h2
    rw [← h2]

/-- C5: the scanner contract.  (1) Each path appears at most once in a
scan even when reported by both query mechanisms; (2) a porcelain line
whose status code contains `D` (a deletion) contributes nothing; (3) a
rename line is parsed as a modification of its destination path; (4)
every untracked file reported by `git ls-files` appears in the scan with
new-file status. -/
theorem scanner_contract (lsOut statusOut : String) :
    (((get_changed_files lsOut statusOut).map FileInfo.file).Nodup) ∧
    (∀ line sc pi, splitFirstSpace (pyStrip line) = some (sc, pi) →
      sc.data.contains 'D' = true → parse_status_line line = none) ∧
    (∀ line sc pi, splitFirstSpace (pyStrip line) = some (sc, pi) →
      pyStartsWith sc "R" = true → sc.data.contains 'D' = false →
      strContains (unquotePath pi) " -> " = true →
      renameDest (unquotePath pi) ≠ "" →
      parse_status_line line = some ⟨"M", renameDest (unquotePath pi)⟩) ∧
    (∀ f, (⟨"??", f⟩ : FileInfo) ∈ untracked_candidates lsOut →
      ∃ rec ∈ get_changed_files lsOut statusOut, rec.file = f ∧ rec.status = "??") := by
  refine ⟨(dedup_records_nodup _ []).1,
    fun line sc pi h1 h2 => parse_status_line_deleted line sc pi h1 h2, ?_, ?_⟩
  · intro line sc pi hsplit hR hD harrow hne
    unfold parse_status_line
    by_cases h0 : pyStrip line = ""
    · rw [h0] at hsplit
      have hnone : (none : Option (String × String)) = some (sc, pi) := by
        rw [← show splitFirstSpace "" = none from rfl]
        exact hsplit
      exact Option.noConfusion hnone
    · simp only [h0, if_false, hsplit, hD, hR, harrow, if_true, Bool.false_eq_true]
      simp only [ne_eq, hne, if_false, if_true]
  · intro f hf
    have hsome : ((untracked_candidates lsOut).find?
        (fun rec => rec.file = f)).isSome := by
      rw [List.find?_isSome]
      exact ⟨⟨"??", f⟩, hf, by simp⟩
    obtain ⟨r0, hr0⟩ := Option.isSome_iff_exists.mp hsome
    have hr0file : r0.file = f := by simpa using List.find?_some hr0
    have hr0mem := List.mem_of_find?_eq_some hr0
    have hr0status := untracked_candidates_status lsOut r0 hr0mem
    have hfind : (untracked_candidates lsOut ++
        (status_lines statusOut).filterMap parse_status_line).find?
          (fun rec => rec.file = f) = some r0 := by
      rw [List.find?_append, hr0]
      rfl
    refine ⟨r0, ?_, hr0file, hr0status⟩
    exact dedup_records_keeps_first _ [] f r0 (by simp [List.contains]) hfind

/-- C5 witness: the contract applied to a concrete scan: a rename line
collapses to its destination and a deletion line is dropped. -/
theorem scanner_contract_witness :
    parse_status_line "R  old.ts -> new.ts" = some ⟨"M", "new.ts"⟩ ∧
      parse_status_line " D gone.txt" = none := by
  constructor
  · exact (scanner_contract "" "").2.2.1 "R  old.ts -> new.ts" "R" " old.ts -> new.ts"
      (by decide) (by decide) (by decide) (by decide) (by decide)
  · exact (scanner_contract "" "").2.1 " D gone.txt" "D" "gone.txt" (by decide) (by decide)

/-! Section: Grouping lemmas (for C2 and C7) -/

/-- A file is in a group of `addToGroup gs key x` iff it was in a group
of `gs` or it is the appended file. -/
theorem addToGroup_mem (gs : List (String × List String)) (key x f : String) :
    (∃ g ∈ addToGroup gs key x, f ∈ g.2) ↔ (∃ g ∈ gs, f ∈ g.2) ∨ f = x := by
  induction gs with
  | nil => simp [addToGroup]
  | cons g0 rest ih =>
    obtain ⟨k, fs⟩ := g0
    unfold addToGroup
    by_cases hk : k = key
    · subst hk
      rw [if_pos rfl]
      constructor
      · rintro ⟨g, hg, hf⟩
        rcases List.mem_cons.mp hg with h | h
        · rw [h] at hf
          rcases List.mem_append.mp hf with h2 | h2
          · exact Or.inl ⟨(k, fs), List.mem_cons_self _ _, h2⟩
          · exact Or.inr (List.mem_singleton.mp h2)
        · exact Or.inl ⟨g, List.mem_cons_of_mem _ h, hf⟩
      · rintro (⟨g, hg, hf⟩ | hf)
        · rcases List.mem_cons.mp hg with h | h
          · refine ⟨(k, fs ++ [x]), List.mem_cons_self _ _, ?_⟩
            rw [h] at hf
            exact List.mem_append.mpr (Or.inl hf)
          · exact ⟨g, List.mem_cons_of_mem _ h, hf⟩
        · refine ⟨(k, fs ++ [x]), List.mem_cons_self _ _, ?_⟩
          subst hf
          exact List.mem_append.mpr (Or.inr (List.mem_singleton.mpr rfl))
    · rw [if_neg hk]
      constructor
      · rintro ⟨g, hg, hf⟩
        rcases List.mem_cons.mp hg with h | h
        · exact Or.inl ⟨(k, fs), List.mem_cons_self _ _, h ▸ hf⟩
        · rcases ih.mp ⟨g, h, hf⟩ with h2 | h2
          · obtain ⟨g2, hg2, hf2⟩ := h2
            exact Or.inl ⟨g2, List.mem_cons_of_mem _ hg2, hf2⟩
          · exact Or.inr h2
      · rintro (⟨g, hg, hf⟩ | hf)
        · rcases List.mem_cons.mp hg with h | h
          · exact ⟨(k, fs), List.mem_cons_self _ _, h ▸ hf⟩
          · obtain ⟨g2, hg2, hf2⟩ := ih.mpr (Or.inl ⟨g, h, hf⟩)
            exact ⟨g2, List.mem_cons_of_mem _ hg2, hf2⟩
        · obtain ⟨g2, hg2, hf2⟩ := ih.mpr (Or.inr hf)
          exact ⟨g2, List.mem_cons_of_mem _ hg2, hf2⟩

/-- Membership across the feature-area fold. -/
theorem foldl_feature_mem (analyses : List FileAnalysis)
    (acc : List (String × List String)) (f : String) :
    (∃ g ∈ analyses.foldl (fun acc a => addToGroup acc a.feature_area a.file) acc,
      f ∈ g.2) ↔ (∃ g ∈ acc, f ∈ g.2) ∨ ∃ a ∈ analyses, a.file = f := by
  induction analyses generalizing acc with
  | nil => simp
  | cons a rest ih =>
    rw [List.foldl_cons, ih, addToGroup_mem]
    constructor
    · rintro ((h | h) | h)
      · exact Or.inl h
      · exact Or.inr ⟨a, List.mem_cons_self _ _, h.symm⟩
      · obtain ⟨a2, ha2, hf2⟩ := h
        exact Or.inr ⟨a2, List.mem_cons_of_mem _ ha2, hf2⟩
    · rintro (h | ⟨a2, ha2, hf2⟩)
      · exact Or.inl (Or.inl h)
      · rcases List.mem_cons.mp ha2 with h2 | h2
        · exact Or.inl (Or.inr (h2 ▸ hf2.symm))
        · exact Or.inr ⟨a2, h2, hf2⟩

/-- A file is in a feature group iff it is a classified file. -/
theorem featureGroups_mem (analyses : List FileAnalysis) (f : String) :
    (∃ g ∈ featureGroups analyses, f ∈ g.2) ↔ ∃ a ∈ analyses, a.file = f := by
  unfold featureGroups
  rw [foldl_feature_mem]
  simp

/-- Membership across the inner pattern fold. -/
theorem foldl_pattern_mem (pats : List String) (x : String)
    (acc : List (String × List String)) (f : String) :
    (∃ g ∈ pats.foldl (fun acc2 p => addToGroup acc2 p x) acc, f ∈ g.2) ↔
      (∃ g ∈ acc, f ∈ g.2) ∨ (pats ≠ [] ∧ f = x) := by
  induction pats generalizing acc with
  | nil => simp
  | cons p ps ih =>
    rw [List.foldl_cons, ih, addToGroup_mem]
    constructor
    · rintro ((h | h) | ⟨-, h⟩)
      · exact Or.inl h
      · exact Or.inr ⟨List.cons_ne_nil _ _, h⟩
      · exact Or.inr ⟨List.cons_ne_nil _ _, h⟩
    · rintro (h | ⟨-, h⟩)
      · exact Or.inl (Or.inl h)
      · exact Or.inl (Or.inr h)

/-- A file is in a dependency group iff it is a classified file with at
least one pattern tag. -/
theorem depGroups_mem (analyses : List FileAnalysis) (f : String) :
    (∃ g ∈ depGroups analyses, f ∈ g.2) ↔
      ∃ a ∈ analyses, a.file = f ∧ a.file_patterns ≠ [] := by
  unfold depGroups
  have hgen : ∀ (l : List FileAnalysis) (acc : List (String × List String)),
      (∃ g ∈ l.foldl
        (fun acc a => a.file_patterns.foldl (fun acc2 p => addToGroup acc2 p a.file) acc)
        acc, f ∈ g.2) ↔
      (∃ g ∈ acc, f ∈ g.2) ∨ ∃ a ∈ l, a.file = f ∧ a.file_patterns ≠ [] := by
    intro l
    induction l with
    | nil => simp
    | cons a rest ih =>
      intro acc
      rw [List.foldl_cons, ih, foldl_pattern_mem]
      constructor
      · rintro ((h | ⟨hps, h⟩) | h)
        · exact Or.inl h
        · exact Or.inr ⟨a, List.mem_cons_self _ _, h.symm, hps⟩
        · obtain ⟨a2, ha2, hf2⟩ := h
          exact Or.inr ⟨a2, List.mem_cons_of_mem _ ha2, hf2⟩
      · rintro (h | ⟨a2, ha2, hf2, hps2⟩)
        · exact Or.inl (Or.inl h)
        · rcases List.mem_cons.mp ha2 with h2 | h2
          · exact Or.inl (Or.inr ⟨h2 ▸ hps2, h2 ▸ hf2.symm⟩)
          · exact Or.inr ⟨a2, h2, hf2, hps2⟩
  rw [hgen]
  simp

/-- The keys after `addToGroup`: unchanged when the key is present,
appended otherwise. -/
theorem addToGroup_keys (gs : List (String × List String)) (key x : String) :
    (addToGroup gs key x).map Prod.fst =
      if key ∈ gs.map Prod.fst then gs.map Prod.fst else gs.map Prod.fst ++ [key] := by
  induction gs with
  | nil => simp [addToGroup]
  | cons g rest ih =>
    obtain ⟨k, fs⟩ := g
    unfold addToGroup
    by_cases hk : k = key
    · subst hk
      simp
    · rw [if_neg hk]
      simp only [List.map_cons, List.mem_cons]
      rw [ih]
      by_cases hmem : key ∈ rest.map Prod.fst
      · rw [if_pos hmem, if_pos (Or.inr hmem)]
      · rw [if_neg hmem, if_neg (by
          rintro (h | h)
          · exact hk h.symm
          · exact hmem h)]
        simp

/-- Lemma: `addToGroup` preserves distinctness of the keys. -/
theorem addToGroup_keys_nodup (gs : List (String × List String)) (key x : String)
    (h : (gs.map Prod.fst).Nodup) : ((addToGroup gs key x).map Prod.fst).Nodup := by
  rw [addToGroup_keys]
  split_ifs with hk
  · exact h
  · simp only [List.nodup_append, List.nodup_singleton]
    exact ⟨h, by simp, by simpa [List.disjoint_singleton] using hk⟩

/-- The dependency groups have pairwise distinct keys. -/
theorem depGroups_keys_nodup (analyses : List FileAnalysis) :
    ((depGroups analyses).map Prod.fst).Nodup := by
  unfold depGroups
  have hpat : ∀ (pats : List String) (x : String) (acc : List (String × List String)),
      (acc.map Prod.fst).Nodup →
      ((pats.foldl (fun acc2 p => addToGroup acc2 p x) acc).map Prod.fst).Nodup := by
    intro pats x
    induction pats with
    | nil => exact fun acc h => h
    | cons p ps ih =>
      intro acc h
      rw [List.foldl_cons]
      exact ih _ (addToGroup_keys_nodup _ _ _ h)
  have hgen : ∀ (l : List FileAnalysis) (acc : List (String × List String)),
      (acc.map Prod.fst).Nodup →
      ((l.foldl
        (fun acc a => a.file_patterns.foldl (fun acc2 p => addToGroup acc2 p a.file) acc)
        acc).map Prod.fst).Nodup := by
    intro l
    induction l with
    | nil => exact fun acc h => h
    | cons a rest ih =>
      intro acc h
      rw [List.foldl_cons]
      exact ih _ (hpat _ _ _ h)
  exact hgen analyses [] (by simp)

/-- In an association list with distinct keys, a key determines its
value. -/
theorem key_value_unique (gs : List (String × List String))
    (h : (gs.map Prod.fst).Nodup) (k : String) (v1 v2 : List String)
    (h1 : (k, v1) ∈ gs) (h2 : (k, v2) ∈ gs) : v1 = v2 := by
  induction gs with
  | nil => simp at h1
  | cons g rest ih =>
    simp only [List.map_cons, List.nodup_cons] at h
    rcases List.mem_cons.mp h1 with ha | ha <;> rcases List.mem_cons.mp h2 with hb | hb
    · injection ha.trans hb.symm
    · exfalso
      apply h.1
      rw [← ha]
      exact List.mem_map.mpr ⟨(k, v2), hb, rfl⟩
    · exfalso
      apply h.1
      rw [← hb]
      exact List.mem_map.mpr ⟨(k, v1), ha, rfl⟩
    · exact ih h.2 ha hb

/-- Key membership: `group_name in final_groups` means some entry has that name. -/
theorem hasKey_iff (final : List (GroupKey × List String)) (k : GroupKey) :
    hasKey final k = true ↔ ∃ v, (k, v) ∈ final := by
  unfold hasKey
  rw [List.any_eq_true]
  constructor
  · rintro ⟨e, he, hq⟩
    have hk : e.1 = k := by simpa using hq
    exact ⟨e.2, by rw [← hk]; exact he⟩
  · rintro ⟨v, hv⟩
    exact ⟨(k, v), hv, by simp⟩

/-- What a successful merge-group search guarantees. -/
theorem findMergeGroup_some (dgs : List (String × List String)) (file : String)
    (dt : String) (df : List String)
    (h : findMergeGroup dgs file = some (dt, df)) :
    (dt, df) ∈ dgs ∧ file ∈ df ∧ 1 < df.length := by
  have hmem := List.mem_of_find?_eq_some h
  have hp := List.find?_some h
  simp only [Bool.and_eq_true, decide_eq_true_eq] at hp
  exact ⟨hmem, List.elem_iff.mp hp.1, hp.2⟩

/-- The main induction along the sorted feature groups: the fold over
`processFeatureGroup` (1) keeps every `Type:` entry a genuine
multi-member dependency group, (2) keeps every emitted file satisfying
any property `P` that holds for the files of the processed groups and of
the dependency groups, (3) preserves files already emitted, and (4)
emits every file of every processed group. -/
theorem processFold (dgs : List (String × List String))
    (hKeys : ((dgs.map Prod.fst)).Nodup)
    (P : String → Prop)
    (hdgP : ∀ g ∈ dgs, ∀ x ∈ g.2, P x) :
    ∀ (l : List (String × List String)) (final : List (GroupKey × List String)),
      (∀ t v, (GroupKey.typeKey t, v) ∈ final → (t, v) ∈ dgs) →
      (∀ e ∈ final, ∀ x ∈ e.2, P x) →
      (∀ g ∈ l, ∀ x ∈ g.2, P x) →
      (∀ t v, (GroupKey.typeKey t, v) ∈ l.foldl (processFeatureGroup dgs) final →
        (t, v) ∈ dgs) ∧
      (∀ e ∈ l.foldl (processFeatureGroup dgs) final, ∀ x ∈ e.2, P x) ∧
      (∀ f, (∃ e ∈ final, f ∈ e.2) →
        ∃ e ∈ l.foldl (processFeatureGroup dgs) final, f ∈ e.2) ∧
      (∀ g ∈ l, ∀ f ∈ g.2, ∃ e ∈ l.foldl (processFeatureGroup dgs) final, f ∈ e.2) := by
  intro l
  induction l with
  | nil =>
    intro final hInv hP hl
    exact ⟨hInv, hP, fun f h => h, by simp⟩
  | cons fg rest ih =>
    intro final hInv hP hl
    rw [List.foldl_cons]
    have hstep :
        (∀ t v, (GroupKey.typeKey t, v) ∈ processFeatureGroup dgs final fg →
          (t, v) ∈ dgs) ∧
        (∀ e ∈ processFeatureGroup dgs final fg, ∀ x ∈ e.2, P x) ∧
        (∀ f, (∃ e ∈ final, f ∈ e.2) →
          ∃ e ∈ processFeatureGroup dgs final fg, f ∈ e.2) ∧
        (∀ f ∈ fg.2, ∃ e ∈ processFeatureGroup dgs final fg, f ∈ e.2) := by
      unfold processFeatureGroup
      split_ifs with hmulti
      · refine ⟨?_, ?_, ?_, ?_⟩
        · intro t v hv
          rcases List.mem_append.mp hv with h | h
          · exact hInv t v h
          · simp at h
        · intro e he x hx
          rcases List.mem_append.mp he with h | h
          · exact hP e h x hx
          · rw [List.mem_singleton] at h
            subst h
            exact hl fg (List.mem_cons_self _ _) x hx
        · rintro f ⟨e, he, hf⟩
          exact ⟨e, List.mem_append.mpr (Or.inl he), hf⟩
        · intro f hf
          exact ⟨(GroupKey.feature fg.1, fg.2),
            List.mem_append.mpr (Or.inr (by simp)), hf⟩
      · cases hfg : fg.2 with
        | nil => exact ⟨hInv, hP, fun f h => h, by simp⟩
        | cons file rest2 =>
          have hrest2 : rest2 = [] := by
            rw [hfg] at hmulti
            simp only [List.length_cons, not_lt] at hmulti
            exact List.length_eq_zero.mp (by omega)
          subst hrest2
          dsimp only
          cases hfind : findMergeGroup dgs file with
          | none =>
            simp only [hfind]
            refine ⟨?_, ?_, ?_, ?_⟩
            · intro t v hv
              rcases List.mem_append.mp hv with h | h
              · exact hInv t v h
              · simp at h
            · intro e he x hx
              rcases List.mem_append.mp he with h | h
              · exact hP e h x hx
              · rw [List.mem_singleton] at h
                subst h
                simp only [List.mem_singleton] at hx
                subst hx
                exact hl fg (List.mem_cons_self _ _) x (by rw [hfg]; simp)
            · rintro f ⟨e, he, hf⟩
              exact ⟨e, List.mem_append.mpr (Or.inl he), hf⟩
            · intro f hf
              rw [List.mem_singleton] at hf
              subst hf
              exact ⟨(GroupKey.individual f, [f]),
                List.mem_append.mpr (Or.inr (by simp)), by simp⟩
          | some dpair =>
            obtain ⟨dt, df⟩ := dpair
            simp only [hfind]
            obtain ⟨hdmem, hdfile, hdlen⟩ := findMergeGroup_some dgs file dt df hfind
            by_cases hhk : hasKey final (GroupKey.typeKey dt) = true
            · rw [if_pos hhk]
              refine ⟨hInv, hP, fun f h => h, ?_⟩
              intro f hf
              rw [List.mem_singleton] at hf
              subst hf
              obtain ⟨v, hv⟩ := (hasKey_iff final (GroupKey.typeKey dt)).mp hhk
              have hvd : v = df :=
                key_value_unique dgs hKeys dt v df (hInv dt v hv) hdmem
              exact ⟨(GroupKey.typeKey dt, v), hv, hvd ▸ hdfile⟩
            · rw [if_neg hhk]
              refine ⟨?_, ?_, ?_, ?_⟩
              · intro t v hv
                rcases List.mem_append.mp hv with h | h
                · exact hInv t v h
                · rw [List.mem_singleton] at h
                  injection h with h1 h2
                  injection h1 with h1
                  subst h1
                  subst h2
                  exact hdmem
              · intro e he x hx
                rcases List.mem_append.mp he with h | h
                · exact hP e h x hx
                · rw [List.mem_singleton] at h
                  subst h
                  exact hdgP (dt, df) hdmem x hx
              · rintro f ⟨e, he, hf⟩
                exact ⟨e, List.mem_append.mpr (Or.inl he), hf⟩
              · intro f hf
                rw [List.mem_singleton] at hf
                subst hf
                exact ⟨(GroupKey.typeKey dt, df),
                  List.mem_append.mpr (Or.inr (by simp)), hdfile⟩
    obtain ⟨hInv2, hP2, hold2, hcov2⟩ := hstep
    obtain ⟨ihInv, ihP, ihold, ihcov⟩ := ih (processFeatureGroup dgs final fg) hInv2 hP2
      (fun g hg => hl g (List.mem_cons_of_mem _ hg))
    refine ⟨ihInv, ihP, ?_, ?_⟩
    · intro f hf
      exact ihold f (hold2 f hf)
    · intro g hg f hf
      rcases List.mem_cons.mp hg with h | h
      · exact ihold f (hcov2 f (h ▸ hf))
      · exact ihcov g h f hf

/-- The trailing loop over dependency groups only appends `Type:`
entries taken verbatim from the dependency groups. -/
theorem addRemainingDeps_props (dgs : List (String × List String)) :
    ∀ final : List (GroupKey × List String),
      ∃ tail, addRemainingDeps dgs final = final ++ tail ∧
        ∀ e ∈ tail, ∃ g ∈ dgs, e = (GroupKey.typeKey g.1, g.2) := by
  unfold addRemainingDeps
  induction dgs with
  | nil =>
    intro final
    exact ⟨[], by simp, by simp⟩
  | cons g rest ih =>
    intro final
    rw [List.foldl_cons]
    by_cases hcond : 1 < g.2.length ∧ ¬ hasKey final (GroupKey.typeKey g.1) = true
    · rw [if_pos hcond]
      obtain ⟨tail, htail, hprop⟩ := ih (final ++ [(GroupKey.typeKey g.1, g.2)])
      refine ⟨[(GroupKey.typeKey g.1, g.2)] ++ tail, ?_, ?_⟩
      · rw [htail, List.append_assoc]
      · intro e he
        rcases List.mem_append.mp he with h | h
        · rw [List.mem_singleton] at h
          exact ⟨g, List.mem_cons_self _ _, h⟩
        · obtain ⟨g2, hg2, he2⟩ := hprop e h
          exact ⟨g2, List.mem_cons_of_mem _ hg2, he2⟩
    · rw [if_neg hcond]
      obtain ⟨tail, htail, hprop⟩ := ih final
      refine ⟨tail, htail, ?_⟩
      intro e he
      obtain ⟨g2, hg2, he2⟩ := hprop e he
      exact ⟨g2, List.mem_cons_of_mem _ hg2, he2⟩

/-- Processing a run of multi-member feature groups appends exactly the
correspondingly named feature entries. -/
theorem foldl_process_multi (dgs : List (String × List String))
    (A : List (String × List String)) :
    ∀ acc, (∀ g ∈ A, 1 < g.2.length) →
      A.foldl (processFeatureGroup dgs) acc =
        acc ++ A.map (fun g => (GroupKey.feature g.1, g.2)) := by
  induction A with
  | nil => simp
  | cons g gs ih =>
    intro acc hA
    rw [List.foldl_cons]
    have hg : processFeatureGroup dgs acc g = acc ++ [(GroupKey.feature g.1, g.2)] := by
      unfold processFeatureGroup
      rw [if_pos (hA g (List.mem_cons_self _ _))]
    rw [hg, ih _ (fun g2 hg2 => hA g2 (List.mem_cons_of_mem _ hg2)),
      List.append_assoc, List.map_cons]
    rfl

/-- Processing a run of at-most-singleton feature groups appends only
entries that are not `Feature:` entries. -/
theorem foldl_process_nonmulti (dgs : List (String × List String))
    (B : List (String × List String)) :
    ∀ acc, (∀ g ∈ B, ¬ 1 < g.2.length) →
      ∃ C, B.foldl (processFeatureGroup dgs) acc = acc ++ C ∧
        ∀ e ∈ C, isFeatureKey e.1 = false := by
  induction B with
  | nil =>
    intro acc _
    exact ⟨[], by simp, by simp⟩
  | cons g gs ih =>
    intro acc hB
    rw [List.foldl_cons]
    have hstep : ∃ D, processFeatureGroup dgs acc g = acc ++ D ∧
        ∀ e ∈ D, isFeatureKey e.1 = false := by
      unfold processFeatureGroup
      rw [if_neg (hB g (List.mem_cons_self _ _))]
      cases hfg : g.2 with
      | nil => exact ⟨[], by simp, by simp⟩
      | cons file rest2 =>
        dsimp only
        cases hfind : findMergeGroup dgs file with
        | none =>
          simp only [hfind]
          exact ⟨[(GroupKey.individual file, [file])], rfl, by simp [isFeatureKey]⟩
        | some dpair =>
          obtain ⟨dt, df⟩ := dpair
          simp only [hfind]
          by_cases hhk : hasKey acc (GroupKey.typeKey dt) = true
          · rw [if_pos hhk]
            exact ⟨[], by simp, by simp⟩
          · rw [if_neg hhk]
            exact ⟨[(GroupKey.typeKey dt, df)], rfl, by simp [isFeatureKey]⟩
    obtain ⟨D, hD, hDf⟩ := hstep
    obtain ⟨C, hC, hCf⟩ := ih (acc ++ D) (fun g2 hg2 => hB g2 (List.mem_cons_of_mem _ hg2))
    refine ⟨D ++ C, by rw [hD, hC, List.append_assoc], ?_⟩
    intro e he
    rcases List.mem_append.mp he with h | h
    · exact hDf e h
    · exact hCf e h

instance : IsTotal (String × List String) sizeGE :=
  ⟨fun a b => Nat.le_total b.2.length a.2.length⟩

instance : IsTrans (String × List String) sizeGE :=
  ⟨fun _ _ _ h1 h2 => Nat.le_trans h2 h1⟩

/-- In a descending-size sorted list, everything after the multi-member
run is at most a singleton. -/
theorem dropWhile_all_not_multi (l : List (String × List String))
    (h : l.Pairwise sizeGE) :
    ∀ g ∈ l.dropWhile (fun g => decide (1 < g.2.length)), ¬ 1 < g.2.length := by
  induction l with
  | nil => simp
  | cons x xs ih =>
    rw [List.dropWhile_cons]
    by_cases hx : 1 < x.2.length
    · rw [if_pos (by simpa using hx)]
      exact ih (List.Pairwise.of_cons h)
    · rw [if_neg (by simpa using hx)]
      intro g hg
      rcases List.mem_cons.mp hg with h2 | h2
      · rw [h2]
        exact hx
      · have hle := (List.pairwise_cons.mp h).1 g h2
        unfold sizeGE at hle
        omega

/-- For such a split list the multi-member filter is the initial
`takeWhile` run. -/
theorem filter_multi_eq_takeWhile (l : List (String × List String))
    (h : l.Pairwise sizeGE) :
    l.filter (fun g => decide (1 < g.2.length)) =
      l.takeWhile (fun g => decide (1 < g.2.length)) := by
  have h1 : ∀ a ∈ l.takeWhile (fun g => decide (1 < g.2.length)),
      decide (1 < a.2.length) = true := by
    intro a ha
    have h3 := List.mem_takeWhile_imp ha
    exact h3
  have h2 : ∀ a ∈ l.dropWhile (fun g => decide (1 < g.2.length)),
      ¬ decide (1 < a.2.length) = true := by
    intro a ha
    simpa using dropWhile_all_not_multi l h a ha
  conv_lhs => rw [← List.takeWhile_append_dropWhile
      (fun g => decide (1 < g.2.length)) l]
  rw [List.filter_append, List.filter_eq_self.mpr h1, List.filter_eq_nil_iff.mpr h2,
    List.append_nil]

/-! Section: C2 — grouping output versus the classified pool -/

/-- C2 counterexample: with two files sharing both a feature area and a
pattern tag, `_group_files_by_features` emits the feature group and then
re-adds the identical pattern group (analysis.py lines 644-648), so the
same file is owned by two emitted groups — the output is not a
partition. -/
theorem grouping_not_disjoint :
    ¬ claimedDisjointness (group_files_by_features partitionCounterInput) := by
  unfold claimedDisjointness
  decide

/-- C2 (amended): the union of the files of all emitted groups equals
exactly the classified pool — every classified file appears in at least
one emitted group and emitted groups contain only classified files — but
a file may be owned by more than one emitted group (no disjointness). -/
theorem grouping_union_eq_pool (analyses : List FileAnalysis) (f : String) :
    (∃ e ∈ group_files_by_features analyses, f ∈ e.2) ↔
      ∃ a ∈ analyses, a.file = f := by
  unfold group_files_by_features
  have hKeys := depGroups_keys_nodup analyses
  have hdgP : ∀ g ∈ depGroups analyses, ∀ x ∈ g.2, ∃ a ∈ analyses, a.file = x := by
    intro g hg x hx
    obtain ⟨a, ha, hfa, -⟩ := (depGroups_mem analyses x).mp ⟨g, hg, hx⟩
    exact ⟨a, ha, hfa⟩
  have hsortP : ∀ g ∈ List.insertionSort sizeGE (featureGroups analyses), ∀ x ∈ g.2,
      ∃ a ∈ analyses, a.file = x := by
    intro g hg x hx
    exact (featureGroups_mem analyses x).mp
      ⟨g, (List.mem_insertionSort sizeGE).mp hg, hx⟩
  obtain ⟨hInv, hP, hold, hcov⟩ := processFold (depGroups analyses) hKeys
    (fun x => ∃ a ∈ analyses, a.file = x) hdgP
    (List.insertionSort sizeGE (featureGroups analyses)) []
    (by simp) (by simp) hsortP
  obtain ⟨tail, htail, htprop⟩ := addRemainingDeps_props (depGroups analyses)
    ((List.insertionSort sizeGE (featureGroups analyses)).foldl
      (processFeatureGroup (depGroups analyses)) [])
  rw [htail]
  constructor
  · rintro ⟨e, he, hf⟩
    rcases List.mem_append.mp he with h | h
    · exact hP e h f hf
    · obtain ⟨g, hg, heg⟩ := htprop e h
      refine hdgP g hg f ?_
      rw [heg] at hf
      exact hf
  · intro hpool
    obtain ⟨g, hg, hfg⟩ := (featureGroups_mem analyses f).mpr hpool
    obtain ⟨e, he, hef⟩ := hcov g ((List.mem_insertionSort sizeGE).mpr hg) f hfg
    exact ⟨e, List.mem_append.mpr (Or.inl he), hef⟩

/-- C2 witness: a classified file of the counterexample pool indeed
appears in some emitted group. -/
theorem grouping_union_eq_pool_witness :
    ∃ e ∈ group_files_by_features partitionCounterInput, "a.ts" ∈ e.2 :=
  (grouping_union_eq_pool partitionCounterInput "a.ts").mpr
    ⟨⟨"a.ts", "frontend", ["source_code"]⟩, by decide, rfl⟩

/-! Section: C7 — emission order of feature groups -/

/-- C7 counterexample: with two equal-sized feature groups, the stable
descending-size sort keeps first-appearance order, so `beta` (whose
first file `z.py` is lexicographically later) is emitted before `alpha`
— ties are not broken by ascending first-file path. -/
theorem tie_break_not_by_first_file :
    ¬ claimedFeatureOrder (group_files_by_features tieBreakCounterInput) := by
  unfold claimedFeatureOrder
  decide

/-- C7 (amended): the multi-member feature groups are emitted first — as
the initial segment of the output, in the stable descending-size sort
order of the feature partition (Python's `sorted` keeps equal-sized
groups in first-appearance order) — and every later entry is not a
`Feature:` entry.  Ties between equal-sized groups follow that stable
order, not ascending first-file path. -/
theorem grouping_tail_structure (dgs : List (String × List String))
    (S : List (String × List String)) (hsorted : S.Pairwise sizeGE) :
    ∃ rest, addRemainingDeps dgs (S.foldl (processFeatureGroup dgs) []) =
      (S.filter (fun g => decide (1 < g.2.length))).map
        (fun g => (GroupKey.feature g.1, g.2)) ++ rest ∧
      ∀ e ∈ rest, isFeatureKey e.1 = false := by
  have hfoldA := foldl_process_multi dgs
    (S.takeWhile (fun g => decide (1 < g.2.length))) []
    (fun g hg => by
      have h2 := List.mem_takeWhile_imp hg
      simpa using h2)
  have hnonm : ∃ C,
      (S.dropWhile (fun g => decide (1 < g.2.length))).foldl (processFeatureGroup dgs)
        ((S.takeWhile (fun g => decide (1 < g.2.length))).map
          (fun g => (GroupKey.feature g.1, g.2))) =
        ((S.takeWhile (fun g => decide (1 < g.2.length))).map
          (fun g => (GroupKey.feature g.1, g.2))) ++ C ∧
        ∀ e ∈ C, isFeatureKey e.1 = false :=
    foldl_process_nonmulti dgs _ _ (dropWhile_all_not_multi S hsorted)
  obtain ⟨C, hC, hCf⟩ := hnonm
  obtain ⟨D, hD, hDf⟩ := addRemainingDeps_props dgs
    (S.foldl (processFeatureGroup dgs) [])
  have hfold_full : S.foldl (processFeatureGroup dgs) [] =
      ((S.takeWhile (fun g => decide (1 < g.2.length))).map
        (fun g => (GroupKey.feature g.1, g.2))) ++ C := by
    conv_lhs => rw [← List.takeWhile_append_dropWhile
      (fun g => decide (1 < g.2.length)) S]
    rw [List.foldl_append, hfoldA, List.nil_append, hC]
  refine ⟨C ++ D, ?_, ?_⟩
  · rw [hD, hfold_full, filter_multi_eq_takeWhile S hsorted, List.append_assoc]
  · intro e he
    rcases List.mem_append.mp he with h | h
    · exact hCf e h
    · obtain ⟨g, -, heg⟩ := hDf e h
      rw [heg]
      rfl

/-- C7 (amended): the multi-member feature groups are emitted first — as
the initial segment of the output, in the stable descending-size sort
order of the feature partition (Python's `sorted` keeps equal-sized
groups in first-appearance order) — and every later entry is not a
`Feature:` entry.  Ties between equal-sized groups follow that stable
order, not ascending first-file path. -/
theorem feature_groups_emitted_first (analyses : List FileAnalysis) :
    ∃ rest, group_files_by_features analyses =
      ((List.insertionSort sizeGE (featureGroups analyses)).filter
        (fun g => decide (1 < g.2.length))).map
        (fun g => (GroupKey.feature g.1, g.2)) ++ rest ∧
      (∀ e ∈ rest, isFeatureKey e.1 = false) ∧
      ((List.insertionSort sizeGE (featureGroups analyses)).filter
        (fun g => decide (1 < g.2.length))).Pairwise sizeGE := by
  have hsorted : (List.insertionSort sizeGE (featureGroups analyses)).Pairwise sizeGE :=
    List.sorted_insertionSort sizeGE (featureGroups analyses)
  obtain ⟨rest, h1, h2⟩ := grouping_tail_structure (depGroups analyses)
    (List.insertionSort sizeGE (featureGroups analyses)) hsorted
  exact ⟨rest, h1, h2, List.Pairwise.filter _ hsorted⟩

/-- C7 witness: the amended emission property evaluated on the
counterexample pool: the two multi-member feature groups form the
initial segment. -/
theorem feature_groups_emitted_first_witness :
    ∃ rest, group_files_by_features tieBreakCounterInput =
      ((List.insertionSort sizeGE (featureGroups tieBreakCounterInput)).filter
        (fun g => decide (1 < g.2.length))).map
        (fun g => (GroupKey.feature g.1, g.2)) ++ rest :=
  ⟨(feature_groups_emitted_first tieBreakCounterInput).choose,
    (feature_groups_emitted_first tieBreakCounterInput).choose_spec.1⟩

end CommitAI
